import Mathlib

/-!
Shallow embedding of the SSP (Spatial Semantic Pointer) decoding notebook.

Real numpy arrays of length D are modelled as functions `ZMod D → ℝ`.
The numpy `fft` / `ifft` are modelled by the discrete Fourier transform
`ZMod.dft` and its inverse, which use the same sign and normalisation
conventions as numpy (`fft` sums `v j * exp (-2 π I j k / D)` with no
prefactor, `ifft` carries the `1 / D` prefactor).  Floating-point
arithmetic is modelled by exact real arithmetic; float literals such as
`0.1`, `0.0001` and `-1.e50` are modelled by the exact rationals written
in the source text.
-/

open Complex Finset
open scoped ComplexConjugate Real

/-!
### Definitions

Every definition of the embedding comes first; all lemmas and
theorems follow after.
-/

noncomputable section

variable {D : ℕ}

/-- numpy `fft` (same convention as `ZMod.dft`). -/
def fft [NeZero D] (v : ZMod D → ℂ) : ZMod D → ℂ := ZMod.dft v

/-- numpy `ifft`. -/
def ifft [NeZero D] (v : ZMod D → ℂ) : ZMod D → ℂ := ZMod.dft.symm v

/-- Implicit coercion of a real array to a complex array (numpy performs
this silently when a real array is handed to `fft`). -/
def toC (v : ZMod D → ℝ) : ZMod D → ℂ := fun n => (v n : ℂ)

/-- Conjugate symmetry of a complex spectrum: the property that makes its
inverse FFT real-valued. -/
def ConjSymm (s : ZMod D → ℂ) : Prop := ∀ k, s (-k) = conj (s k)

namespace MySP

/-- MySP.unitary: force every Fourier coefficient to modulus 1 keeping its
phase, then transform back and keep the real part
(`real (ifft (exp (1j * angle (fft v))))`). -/
def unitary [NeZero D] (v : ZMod D → ℝ) : ZMod D → ℝ :=
  fun n =>
    (ifft (fun k => Complex.exp ((Complex.arg (fft (toC v) k) : ℂ) * Complex.I)) n).re

/-- MySP.bind: circular convolution, `real (ifft (fft v * fft y))`. -/
def bind [NeZero D] (v y : ZMod D → ℝ) : ZMod D → ℝ :=
  fun n => (ifft (fun k => fft (toC v) k * fft (toC y) k) n).re

/-- MySP.unbind: `real (ifft (fft v / fft y))`. -/
def unbind [NeZero D] (v y : ZMod D → ℝ) : ZMod D → ℝ :=
  fun n => (ifft (fun k => fft (toC v) k / fft (toC y) k) n).re

/-- MySP.bundle: elementwise sum. -/
def bundle (v y : ZMod D → ℝ) : ZMod D → ℝ := fun n => v n + y n

/-- MySP.power: `real (ifft (fft v ** p))` with the numpy complex principal
power (for a complex base and a real exponent numpy computes
`exp (p * log z)` on the principal branch, which is `Complex.cpow`). -/
def power [NeZero D] (v : ZMod D → ℝ) (p : ℝ) : ZMod D → ℝ :=
  fun n => (ifft (fun k => fft (toC v) k ^ (p : ℂ)) n).re

/-- MySP.similarity: dot product of the value arrays. -/
def similarity [NeZero D] (v y : ZMod D → ℝ) : ℝ := ∑ n, v n * y n

/-- A vector is unitary when every Fourier coefficient of its value array
has modulus 1 (the property the spec calls unitary). -/
def IsUnitary [NeZero D] (v : ZMod D → ℝ) : Prop :=
  ∀ k, Complex.abs (fft (toC v) k) = 1

end MySP

/-- Real delta vector: 1 at position m, 0 elsewhere. -/
def deltaR {D : ℕ} (m : ZMod D) : ZMod D → ℝ := fun n => if n = m then 1 else 0

/-- D2 = (D+1)//2, the number of independently drawn phases in
MySP.__init__. -/
def halfDim (D : ℕ) : ℕ := (D + 1) / 2

/-- Python start index of the slice `angles[-D2+1:]` (a negative start
counts from the end of the array). -/
def sliceStart (D : ℕ) : ℕ :=
  if (1 : ℤ) - (halfDim D : ℤ) < 0 then ((D : ℤ) + ((1 : ℤ) - (halfDim D : ℤ))).toNat
  else ((1 : ℤ) - (halfDim D : ℤ)).toNat

/-- The phase construction of MySP.__init__ applied to the i.i.d. draws a:
`angles[-D2+1:] = flip(-angles[1:D2]); angles[0] = 0.;`
`if D % 2 == 0: angles[D2] = 0.`
numpy raises a broadcast ValueError when the two slice lengths differ
(which happens exactly when D < 3); that failure is modelled by `none`.
Later writes win, so the stored array is read with the assignments
checked in reverse order. -/
def mkAngles (D : ℕ) [NeZero D] (a : ZMod D → ℝ) : Option (ZMod D → ℝ) :=
  if D - sliceStart D = halfDim D - 1 then
    some (fun j =>
      if D % 2 = 0 ∧ j.val = halfDim D then 0
      else if j = 0 then 0
      else if sliceStart D ≤ j.val then
        -a (((halfDim D - 1 - (j.val - sliceStart D) : ℕ) : ZMod D))
      else a j)
  else none

/-- The value array of a randomly generated MySP:
`self.v = real(ifft(exp(1.j*angles)))`. -/
def mkValues (D : ℕ) [NeZero D] (θ : ZMod D → ℝ) : ZMod D → ℝ :=
  fun n => (ifft (fun k => Complex.exp ((θ k : ℂ) * Complex.I)) n).re

/-- The accumulator scan inside HRR.cleanup:
`closest = -1; max_sim = -1.e50;`
`for k,s in enumerate(self.vocab): sim = x.similarity(s);`
`if sim > max_sim: closest = k; max_sim = sim`. -/
noncomputable def cleanupScan : List ℝ → ℕ → ℤ → ℝ → ℤ × ℝ
  | [], _, closest, maxSim => (closest, maxSim)
  | s :: rest, k, closest, maxSim =>
    if s > maxSim then cleanupScan rest (k + 1) (k : ℤ) s
    else cleanupScan rest (k + 1) closest maxSim

/-- Python list indexing, with negative indices counting from the end of
the list. -/
def pythonGet {β : Type} (l : List β) (i : ℤ) : Option β :=
  if 0 ≤ i then l[i.toNat]?
  else if 0 ≤ i + l.length then l[(i + l.length).toNat]?
  else none

/-- HRR.cleanup: scan all similarities, then return
`(self(closest), closest, max_sim)`. -/
noncomputable def cleanup {D : ℕ} [NeZero D] (vocab : List (ZMod D → ℝ))
    (x : ZMod D → ℝ) : Option (ZMod D → ℝ) × ℤ × ℝ :=
  let r := cleanupScan (vocab.map (fun s => MySP.similarity x s)) 0 (-1) (-(10 ^ 50))
  (pythonGet vocab r.1, r.1, r.2)

/-- numpy elementwise binary operation on 1-D arrays: equal lengths
operate elementwise, a length-1 operand is broadcast against the other,
and every other length combination raises a broadcast ValueError
(modelled as none). -/
def npBinop {β : Type} [Inhabited β] (f : β → β → β) (v y : List β) : Option (List β) :=
  if v.length = y.length then some (List.zipWith f v y)
  else if v.length = 1 then some (y.map (f v.headI))
  else if y.length = 1 then some (v.map (fun b => f b y.headI))
  else none

/-- numpy fft of a real list, by the numpy definition
`A_k = sum_m a_m exp(-2 π i m k / n)`; length-preserving. -/
noncomputable def fftList (v : List ℝ) : List ℂ :=
  (List.finRange v.length).map
    (fun k => ∑ j : Fin v.length,
      (v.get j : ℂ) * Complex.exp (-2 * π * Complex.I * j.val * k.val / v.length))

/-- numpy ifft of a complex list; length-preserving. -/
noncomputable def ifftList (s : List ℂ) : List ℂ :=
  (List.finRange s.length).map
    (fun k => (s.length : ℂ)⁻¹ * ∑ j : Fin s.length,
      s.get j * Complex.exp (2 * π * Complex.I * j.val * k.val / s.length))

/-- MySP.bind on raw numpy arrays of possibly different lengths. -/
noncomputable def bindL (v y : List ℝ) : Option (List ℝ) :=
  (npBinop (· * ·) (fftList v) (fftList y)).map (fun s => (ifftList s).map Complex.re)

/-- MySP.unbind on raw numpy arrays of possibly different lengths. -/
noncomputable def unbindL (v y : List ℝ) : Option (List ℝ) :=
  (npBinop (· / ·) (fftList v) (fftList y)).map (fun s => (ifftList s).map Complex.re)

/-- MySP.bundle on raw numpy arrays: `self.v + y.v`. -/
def bundleL (v y : List ℝ) : Option (List ℝ) := npBinop (· + ·) v y

/-- MySP.similarity on raw numpy arrays: `np.dot` of two 1-D arrays
requires equal lengths (np.dot does NOT broadcast). -/
def similarityL (v y : List ℝ) : Option ℝ :=
  if v.length = y.length then some (List.zipWith (· * ·) v y).sum else none

end

section Decoder

variable {α : Type} [LinearOrderedField α] {m : ℕ}

/-- One gradient increment of the decode loop (cell-25) at iteration
counter t from estimate x, written the way the spec words it:
censor the residuals whose magnitude exceeds 1/t, then take kappa times
the dot product of DeltaA with the censored residual vector. -/
def xIncrement (kappa : α) (DPhi DA : Fin m → α) (t : ℕ) (x : α) : α :=
  kappa * ∑ i, DA i * (if |DPhi i - DA i * x| > 1 / (t : α) then 0 else DPhi i - DA i * x)

/-- The update rule of one decode iteration. -/
def stepX (kappa : α) (DPhi DA : Fin m → α) (t : ℕ) (x : α) : α :=
  x + xIncrement kappa DPhi DA t x

/-- Pure iteration of the update rule, with the iteration counter running
alongside (no stopping test). -/
def iterFrom (kappa : α) (DPhi DA : Fin m → α) : ℕ → ℕ → α → α
  | _, 0, x => x
  | t, n + 1, x => iterFrom kappa DPhi DA (t + 1) n (stepX kappa DPhi DA t x)

/-- The decode loop of cell-25, translated statement by statement:
`resid = DeltaPhi - DeltaA*x`, `resid[abs(resid) > 1./iter] = 0.`,
`x_increment = kappa * (DeltaA @ resid)`, `x += x_increment`, and
`if abs(x_increment) < 0.0001: break`.  The fuel argument counts the
remaining iterations of `for iter in range(1, max_iters)`; the result is
the final estimate, whether the break was taken, and the final value of
the iteration counter. -/
def decodeLoop (kappa eps : α) (DPhi DA : Fin m → α) : ℕ → ℕ → α → α × Bool × ℕ
  | 0, t, x => (x, false, t)
  | fuel + 1, t, x =>
    let resid : Fin m → α := fun i => DPhi i - DA i * x
    let resid2 : Fin m → α := fun i => if |resid i| > 1 / (t : α) then 0 else resid i
    let inc : α := kappa * ∑ i, DA i * resid2 i
    let x2 := x + inc
    if |inc| < eps then (x2, true, t) else decodeLoop kappa eps DPhi DA fuel (t + 1) x2

/-- The decode entry point: estimate starts at 0, the iteration counter
starts at 1, and at most M - 1 update iterations are performed. -/
def decode (DPhi DA : Fin m → α) (kappa eps : α) (M : ℕ) : α × Bool × ℕ :=
  decodeLoop kappa eps DPhi DA (M - 1) 1 0

/-- decode with the default parameters of cell-25:
kappa = 0.1, eps = 0.0001, max_iters = 100. -/
def decodeDefault (DPhi DA : Fin m → α) : α × Bool × ℕ :=
  decode DPhi DA (1 / 10) (1 / 10000) 100

end Decoder

section Couplings

variable {α : Type} [LinearOrderedField α] {D : ℕ}

/-- numpy argsort of the phase array (cell-20, `sidx = argsort(sp.a)`):
the list of indices that sorts the phases ascending. -/
def argsort (a : Fin D → α) : List (Fin D) :=
  (List.finRange D).mergeSort (fun i j => decide (a i ≤ a j))

/-- Adjacent couplings, `zip(sidx[:-1], sidx[1:])`. -/
def adjacentCouplings (a : Fin D → α) : List (Fin D × Fin D) :=
  (argsort a).dropLast.zip ((argsort a).drop 1)

/-- Skip-one couplings, `zip(sidx[:-2], sidx[2:])`. -/
def skipCouplings (a : Fin D → α) : List (Fin D × Fin D) :=
  (argsort a).dropLast.dropLast.zip ((argsort a).drop 2)

/-- cell-20: adjacent couplings followed by the skip-one couplings. -/
def couplings (a : Fin D → α) : List (Fin D × Fin D) :=
  adjacentCouplings a ++ skipCouplings a

/-- cell-21: `DeltaA = [sp.a[c[0]] - sp.a[c[1]] for c in couplings]`. -/
def DeltaA (a : Fin D → α) : List α := (couplings a).map (fun c => a c.1 - a c.2)

/-- Concrete rational phase vector used to witness C7. -/
def phase3 : Fin 3 → ℚ := fun i => if i = 0 then 2 else if i = 1 then 1 else 3

end Couplings

/-!
### Lemmas and theorems
-/

section

variable {D : ℕ}

lemma fft_ifft [NeZero D] (s : ZMod D → ℂ) : fft (ifft s) = s :=
  ZMod.dft.apply_symm_apply s

lemma ifft_fft [NeZero D] (s : ZMod D → ℂ) : ifft (fft s) = s :=
  ZMod.dft.symm_apply_apply s

lemma abs_stdAddChar [NeZero D] (j : ZMod D) : Complex.abs (ZMod.stdAddChar j) = 1 := by
  rw [ZMod.stdAddChar_apply]; exact Circle.abs_coe _

lemma stdAddChar_conj [NeZero D] (j : ZMod D) :
    conj (ZMod.stdAddChar j) = ZMod.stdAddChar (-j) := by
  rw [ZMod.stdAddChar_apply, ZMod.stdAddChar_apply, AddChar.map_neg_eq_inv,
    Circle.coe_inv_eq_conj]

lemma conjSymm_fft_toC [NeZero D] (v : ZMod D → ℝ) : ConjSymm (fft (toC v)) := by
  intro k
  simp only [fft, ZMod.dft_apply, toC, smul_eq_mul, map_sum, map_mul, conj_ofReal,
    stdAddChar_conj, neg_neg, mul_neg, neg_mul]

lemma ConjSymm.mul [NeZero D] {s t : ZMod D → ℂ} (hs : ConjSymm s) (ht : ConjSymm t) :
    ConjSymm (fun k => s k * t k) := by
  intro k; simp only [hs k, ht k, map_mul]

lemma ConjSymm.div [NeZero D] {s t : ZMod D → ℂ} (hs : ConjSymm s) (ht : ConjSymm t) :
    ConjSymm (fun k => s k / t k) := by
  intro k; simp only [hs k, ht k, map_div₀]

lemma conj_ifft [NeZero D] {s : ZMod D → ℂ} (hs : ConjSymm s) (n : ZMod D) :
    conj (ifft s n) = ifft s n := by
  have hrw : ifft s n = (D : ℂ)⁻¹ • ∑ j : ZMod D, ZMod.stdAddChar (j * n) • s j :=
    ZMod.invDFT_apply s n
  rw [hrw]
  simp only [smul_eq_mul, map_mul, map_inv₀, map_natCast, map_sum, stdAddChar_conj]
  congr 1
  have hconj : ∀ j : ZMod D, conj (s j) = s (-j) := fun j => (hs j).symm
  calc ∑ j : ZMod D, ZMod.stdAddChar (-(j * n)) * conj (s j)
      = ∑ j : ZMod D, ZMod.stdAddChar (-(j * n)) * s (-j) := by
        simp only [hconj]
    _ = ∑ j : ZMod D, ZMod.stdAddChar (j * n) * s j := by
        refine Fintype.sum_equiv (Equiv.neg _) _ _ (fun j => ?_)
        simp only [Equiv.neg_apply, neg_mul, neg_neg]

lemma im_ifft_eq_zero [NeZero D] {s : ZMod D → ℂ} (hs : ConjSymm s) (n : ZMod D) :
    (ifft s n).im = 0 := by
  have := conj_ifft hs n
  rwa [Complex.conj_eq_iff_im] at this

lemma toC_re_ifft [NeZero D] {s : ZMod D → ℂ} (hs : ConjSymm s) :
    toC (fun n => (ifft s n).re) = ifft s := by
  funext n
  apply Complex.ext
  · simp [toC]
  · simp [toC, im_ifft_eq_zero hs n]

lemma fft_re_ifft [NeZero D] {s : ZMod D → ℂ} (hs : ConjSymm s) :
    fft (toC fun n => (ifft s n).re) = s := by
  rw [toC_re_ifft hs, fft_ifft]

lemma ConjSymm.expArgI [NeZero D] {s : ZMod D → ℂ} (hs : ConjSymm s) :
    ConjSymm (fun k => Complex.exp ((Complex.arg (s k) : ℂ) * Complex.I)) := by
  intro k
  simp only [hs k]
  rw [← Complex.exp_conj, map_mul, Complex.conj_ofReal, Complex.conj_I]
  rcases eq_or_ne (Complex.arg (s k)) π with hπ | hπ
  · rw [Complex.arg_conj, if_pos hπ, hπ, mul_neg, Complex.exp_neg, Complex.exp_pi_mul_I]
    norm_num
  · rw [Complex.arg_conj, if_neg hπ]
    congr 1
    push_cast
    ring

lemma ConjSymm.cpowReal [NeZero D] {s : ZMod D → ℂ} (hs : ConjSymm s) (p : ℝ)
    (hπ : ∀ k, Complex.arg (s k) ≠ π) :
    ConjSymm (fun k => s k ^ (p : ℂ)) := by
  intro k
  show s (-k) ^ (p : ℂ) = conj (s k ^ (p : ℂ))
  rw [hs k, Complex.conj_cpow _ _ (hπ k), Complex.conj_ofReal]

lemma fft_bind [NeZero D] (v y : ZMod D → ℝ) :
    fft (toC (MySP.bind v y)) = fun k => fft (toC v) k * fft (toC y) k :=
  fft_re_ifft ((conjSymm_fft_toC v).mul (conjSymm_fft_toC y))

lemma fft_unitary [NeZero D] (v : ZMod D → ℝ) :
    fft (toC (MySP.unitary v)) =
      fun k => Complex.exp ((Complex.arg (fft (toC v) k) : ℂ) * Complex.I) :=
  fft_re_ifft (conjSymm_fft_toC v).expArgI

lemma fft_power [NeZero D] (v : ZMod D → ℝ) (p : ℝ)
    (hπ : ∀ k, Complex.arg (fft (toC v) k) ≠ π) :
    fft (toC (MySP.power v p)) = fun k => fft (toC v) k ^ (p : ℂ) :=
  fft_re_ifft ((conjSymm_fft_toC v).cpowReal p hπ)

lemma fft_toC_one_const : fft (toC (fun _ : ZMod 1 => (1 : ℝ))) = fun _ => (1 : ℂ) := by
  funext k
  simp only [fft, ZMod.dft_apply, toC, smul_eq_mul, Fintype.sum_unique, Complex.ofReal_one,
    mul_one]
  rw [Subsingleton.elim (-(default * k)) (0 : ZMod 1)]
  exact AddChar.map_zero_eq_one _

lemma isUnitary_one_const : MySP.IsUnitary (fun _ : ZMod 1 => (1 : ℝ)) := by
  intro k
  rw [fft_toC_one_const]
  simp

/-- C4: for unitary vectors v and w of the same dimension,
`v.bind(w).unbind(w)` recovers v exactly (in the exact-real model, so in
particular within floating-point tolerance). -/
theorem bind_unbind_roundtrip {D : ℕ} [NeZero D] (v w : ZMod D → ℝ)
    (hv : MySP.IsUnitary v) (hw : MySP.IsUnitary w) :
    MySP.unbind (MySP.bind v w) w = v := by
  have hw0 : ∀ k, fft (toC w) k ≠ 0 := by
    intro k h
    have h1 := hw k
    rw [h] at h1
    simp at h1
  funext n
  show (ifft (fun k => fft (toC (MySP.bind v w)) k / fft (toC w) k) n).re = v n
  simp only [fft_bind]
  have hdiv : (fun k => fft (toC v) k * fft (toC w) k / fft (toC w) k) = fft (toC v) := by
    funext k
    exact mul_div_cancel_right₀ _ (hw0 k)
  rw [hdiv, ifft_fft]
  rfl

/-- Witness for C4 at dimension 1. -/
theorem bind_unbind_roundtrip_witness :
    MySP.unbind (MySP.bind (fun _ : ZMod 1 => (1 : ℝ)) (fun _ : ZMod 1 => (1 : ℝ)))
        (fun _ : ZMod 1 => (1 : ℝ)) = fun _ : ZMod 1 => (1 : ℝ) :=
  bind_unbind_roundtrip _ _ isUnitary_one_const isUnitary_one_const

/-- C5: every Fourier coefficient of `v.unitary()` has modulus exactly 1
(in the exact-real model), and its phase equals the phase of the
corresponding Fourier coefficient of v. -/
theorem unitary_unit_modulus {D : ℕ} [NeZero D] (v : ZMod D → ℝ) (k : ZMod D) :
    Complex.abs (fft (toC (MySP.unitary v)) k) = 1 ∧
      Complex.arg (fft (toC (MySP.unitary v)) k) = Complex.arg (fft (toC v) k) := by
  constructor
  · simp only [fft_unitary]
    simp [Complex.abs_exp]
  · simp only [fft_unitary]
    have hθ := Complex.arg_mem_Ioc (fft (toC v) k)
    rw [Complex.exp_mul_I]
    exact Complex.arg_cos_add_sin_mul_I hθ

/-- Witness for C5 at dimension 1. -/
theorem unitary_unit_modulus_witness :
    Complex.abs (fft (toC (MySP.unitary (fun _ : ZMod 1 => (2 : ℝ)))) 0) = 1 ∧
      Complex.arg (fft (toC (MySP.unitary (fun _ : ZMod 1 => (2 : ℝ)))) 0) =
        Complex.arg (fft (toC (fun _ : ZMod 1 => (2 : ℝ))) 0) :=
  unitary_unit_modulus _ 0

/-- C10: binding is commutative, because it multiplies Fourier spectra
coefficientwise. -/
theorem bind_commutative {D : ℕ} [NeZero D] (v w : ZMod D → ℝ) :
    MySP.bind v w = MySP.bind w v := by
  unfold MySP.bind
  have h : (fun k => fft (toC v) k * fft (toC w) k)
      = fun k => fft (toC w) k * fft (toC v) k := funext fun k => mul_comm _ _
  rw [h]

/-- Witness for C10 at dimension 1. -/
theorem bind_commutative_witness :
    MySP.bind (fun _ : ZMod 1 => (2 : ℝ)) (fun _ : ZMod 1 => (3 : ℝ))
      = MySP.bind (fun _ : ZMod 1 => (3 : ℝ)) (fun _ : ZMod 1 => (2 : ℝ)) :=
  bind_commutative _ _

/-- C3 (amended): power composition `v.power(p).power(q) = v.power(p·q)`
holds for a unitary vector v provided the principal branch is respected:
no Fourier coefficient of v lies on the negative real axis (its phase is
not π), and multiplying each phase by p does not wrap past ±π.  The
unamended claim is refuted by `power_power_counterexample` below. -/
theorem power_power_amended {D : ℕ} [NeZero D] (v : ZMod D → ℝ) (p q : ℝ)
    (hu : MySP.IsUnitary v)
    (hπ : ∀ k, Complex.arg (fft (toC v) k) ≠ π)
    (hbr : ∀ k, -π < p * Complex.arg (fft (toC v) k)
      ∧ p * Complex.arg (fft (toC v) k) ≤ π) :
    MySP.power (MySP.power v p) q = MySP.power v (p * q) := by
  have hpt : (fun k => (fft (toC v) k ^ (p : ℂ)) ^ (q : ℂ))
      = fun k => fft (toC v) k ^ ((p * q : ℝ) : ℂ) := by
    funext k
    have him : (Complex.log (fft (toC v) k) * (p : ℂ)).im
        = p * Complex.arg (fft (toC v) k) := by
      rw [Complex.mul_im]
      simp [Complex.log_im, mul_comm]
    have h1 : -π < (Complex.log (fft (toC v) k) * (p : ℂ)).im := by
      rw [him]; exact (hbr k).1
    have h2 : (Complex.log (fft (toC v) k) * (p : ℂ)).im ≤ π := by
      rw [him]; exact (hbr k).2
    rw [show ((p * q : ℝ) : ℂ) = (p : ℂ) * (q : ℂ) by push_cast; ring]
    exact (Complex.cpow_mul _ h1 h2).symm
  have h1 : MySP.power (MySP.power v p) q
      = fun n => (ifft (fun k => fft (toC (MySP.power v p)) k ^ (q : ℂ)) n).re := rfl
  rw [h1]
  simp only [fft_power v p hπ]
  rw [hpt]
  rfl

lemma ifft_apply [NeZero D] (s : ZMod D → ℂ) (n : ZMod D) :
    ifft s n = (D : ℂ)⁻¹ • ∑ j : ZMod D, ZMod.stdAddChar (j * n) • s j :=
  ZMod.invDFT_apply s n

lemma fft_deltaR {D : ℕ} [NeZero D] (m : ZMod D) :
    fft (toC (deltaR m)) = fun k => ZMod.stdAddChar (-(m * k)) := by
  funext k
  simp only [fft, ZMod.dft_apply, toC, deltaR, smul_eq_mul]
  rw [Finset.sum_eq_single m]
  · simp
  · intro j _ hj
    simp [hj]
  · intro h
    exact absurd (Finset.mem_univ m) h

lemma sum_zmod4 (f : ZMod 4 → ℂ) : ∑ j, f j = f 0 + f 1 + f 2 + f 3 := by
  have h : (Finset.univ : Finset (ZMod 4)) = {0, 1, 2, 3} := by decide
  rw [h, Finset.sum_insert (by decide), Finset.sum_insert (by decide),
    Finset.sum_insert (by decide), Finset.sum_singleton]
  ring

lemma stdAddChar_two_zmod4 : ZMod.stdAddChar (2 : ZMod 4) = -1 := by
  have h : ((2 : ℤ) : ZMod 4) = (2 : ZMod 4) := by decide
  rw [← h, ZMod.stdAddChar_coe]
  rw [show (2 * (π : ℂ) * Complex.I * ((2 : ℤ) : ℂ) / ((4 : ℕ) : ℂ)) = (π : ℂ) * Complex.I by
    push_cast; ring]
  exact Complex.exp_pi_mul_I

lemma neg_one_cpow_half : (-1 : ℂ) ^ (((1 : ℝ) / 2 : ℝ) : ℂ) = Complex.I := by
  rw [Complex.cpow_def_of_ne_zero (by norm_num), Complex.log_neg_one]
  rw [show ((π : ℂ) * Complex.I * (((1 : ℝ) / 2 : ℝ) : ℂ)) = ((π / 2 : ℝ) : ℂ) * Complex.I by
    push_cast; ring]
  rw [Complex.exp_mul_I, ← Complex.ofReal_cos, ← Complex.ofReal_sin,
    Real.cos_pi_div_two, Real.sin_pi_div_two]
  simp

lemma power_two_v4 : MySP.power (deltaR (1 : ZMod 4)) 2 = deltaR 2 := by
  have hs : (fun k => fft (toC (deltaR (1 : ZMod 4))) k ^ ((2 : ℝ) : ℂ))
      = fft (toC (deltaR (2 : ZMod 4))) := by
    funext k
    simp only [fft_deltaR]
    rw [show ((2 : ℝ) : ℂ) = ((2 : ℕ) : ℂ) by norm_num, Complex.cpow_natCast]
    rw [show ZMod.stdAddChar (-(1 * k)) ^ (2 : ℕ)
        = ZMod.stdAddChar (-(1 * k)) * ZMod.stdAddChar (-(1 * k)) by ring]
    rw [← AddChar.map_add_eq_mul]
    congr 1
    ring
  have h1 : MySP.power (deltaR (1 : ZMod 4)) 2
      = fun n => (ifft (fun k => fft (toC (deltaR (1 : ZMod 4))) k ^ ((2 : ℝ) : ℂ)) n).re :=
    rfl
  rw [h1, hs]
  funext n
  rw [ifft_fft]
  rfl

lemma power_half_v4_at0 : MySP.power (deltaR (2 : ZMod 4)) ((1 : ℝ) / 2) 0 = 1 / 2 := by
  have h1 : MySP.power (deltaR (2 : ZMod 4)) ((1 : ℝ) / 2) 0
      = (ifft (fun k => fft (toC (deltaR (2 : ZMod 4))) k ^ (((1 : ℝ) / 2 : ℝ) : ℂ)) 0).re :=
    rfl
  rw [h1]
  simp only [fft_deltaR]
  rw [ifft_apply, sum_zmod4]
  have e0 : ZMod.stdAddChar (-(2 * (0 : ZMod 4))) ^ (((1 : ℝ) / 2 : ℝ) : ℂ) = 1 := by
    rw [show (-(2 * (0 : ZMod 4)) : ZMod 4) = 0 by decide, AddChar.map_zero_eq_one, one_cpow]
  have e1 : ZMod.stdAddChar (-(2 * (1 : ZMod 4))) ^ (((1 : ℝ) / 2 : ℝ) : ℂ) = Complex.I := by
    rw [show (-(2 * (1 : ZMod 4)) : ZMod 4) = 2 by decide, stdAddChar_two_zmod4,
      neg_one_cpow_half]
  have e2 : ZMod.stdAddChar (-(2 * (2 : ZMod 4))) ^ (((1 : ℝ) / 2 : ℝ) : ℂ) = 1 := by
    rw [show (-(2 * (2 : ZMod 4)) : ZMod 4) = 0 by decide, AddChar.map_zero_eq_one, one_cpow]
  have e3 : ZMod.stdAddChar (-(2 * (3 : ZMod 4))) ^ (((1 : ℝ) / 2 : ℝ) : ℂ) = Complex.I := by
    rw [show (-(2 * (3 : ZMod 4)) : ZMod 4) = 2 by decide, stdAddChar_two_zmod4,
      neg_one_cpow_half]
  have ch : ∀ j : ZMod 4, ZMod.stdAddChar (j * (0 : ZMod 4)) = 1 := by
    intro j
    rw [mul_zero, AddChar.map_zero_eq_one]
  simp only [smul_eq_mul, ch, AddChar.map_zero_eq_one, e0, e1, e2, e3, one_mul]
  rw [show ((1 : ℂ) + Complex.I + 1 + Complex.I) = 2 + 2 * Complex.I by ring]
  rw [show (((4 : ℕ) : ℂ))⁻¹ = (((1 : ℝ) / 4 : ℝ) : ℂ) by push_cast; norm_num]
  rw [Complex.re_ofReal_mul]
  norm_num [Complex.add_re, Complex.mul_re]

lemma power_one_v4_at0 : MySP.power (deltaR (1 : ZMod 4)) (2 * ((1 : ℝ) / 2)) 0 = 0 := by
  have hval : (2 * ((1 : ℝ) / 2) : ℝ) = 1 := by norm_num
  rw [hval]
  have h1 : MySP.power (deltaR (1 : ZMod 4)) 1
      = fun n => (ifft (fun k => fft (toC (deltaR (1 : ZMod 4))) k ^ ((1 : ℝ) : ℂ)) n).re :=
    rfl
  rw [h1]
  simp only [show ((1 : ℝ) : ℂ) = 1 by norm_num, Complex.cpow_one]
  rw [show (fun k => fft (toC (deltaR (1 : ZMod 4))) k) = fft (toC (deltaR (1 : ZMod 4)))
    from rfl]
  rw [ifft_fft]
  simp [toC, deltaR]
  decide

lemma mkAngles_elim {D : ℕ} [NeZero D] {a θ : ZMod D → ℝ} (h : mkAngles D a = some θ) :
    3 ≤ D ∧ sliceStart D = D - halfDim D + 1 ∧
      θ = fun j =>
        if D % 2 = 0 ∧ j.val = halfDim D then 0
        else if j = 0 then 0
        else if sliceStart D ≤ j.val then
          -a (((halfDim D - 1 - (j.val - sliceStart D) : ℕ) : ZMod D))
        else a j := by
  have hD0 : D ≠ 0 := NeZero.ne D
  unfold mkAngles at h
  split_ifs at h with hcond
  · have h3 : 3 ≤ D := by
      unfold sliceStart halfDim at hcond
      split_ifs at hcond with hlt
      · omega
      · omega
    refine ⟨h3, ?_, (Option.some.inj h).symm⟩
    unfold sliceStart halfDim
    split_ifs with hlt
    · omega
    · omega

lemma mkAngles_zero {D : ℕ} [NeZero D] {a θ : ZMod D → ℝ}
    (h : mkAngles D a = some θ) : θ 0 = 0 := by
  obtain ⟨h3, hS, hθ⟩ := mkAngles_elim h
  have hD2lo : 2 ≤ halfDim D := by unfold halfDim; omega
  subst hθ
  simp only [ZMod.val_zero]
  rw [if_neg (by omega : ¬(D % 2 = 0 ∧ 0 = halfDim D))]
  simp

lemma mkAngles_neg {D : ℕ} [NeZero D] {a θ : ZMod D → ℝ}
    (h : mkAngles D a = some θ) (j : ZMod D) : θ (-j) = -θ j := by
  obtain ⟨h3, hS, hθ⟩ := mkAngles_elim h
  have hD2lo : 2 ≤ halfDim D := by unfold halfDim; omega
  have hD2hi : 2 * halfDim D ≤ D + 1 := by unfold halfDim; omega
  have hD2lo2 : D ≤ 2 * halfDim D := by unfold halfDim; omega
  subst hθ
  by_cases hj0 : j = 0
  · subst hj0
    rw [neg_zero]
    simp only [ZMod.val_zero]
    rw [if_neg (by omega : ¬(D % 2 = 0 ∧ 0 = halfDim D))]
    simp
  · have hmlt : j.val < D := ZMod.val_lt j
    have hm1 : 1 ≤ j.val := by
      rcases Nat.eq_zero_or_pos j.val with h0 | h1
      · exact absurd ((ZMod.val_eq_zero j).mp h0) hj0
      · exact h1
    have hnj0 : -j ≠ 0 := fun hcon => hj0 (by simpa using hcon)
    have hnegval : (-j).val = D - j.val := by rw [ZMod.neg_val, if_neg hj0]
    have hcastj : ((j.val : ℕ) : ZMod D) = j := ZMod.natCast_zmod_val j
    have hcastnj : (((D - j.val : ℕ)) : ZMod D) = -j := by
      rw [← hnegval]
      exact ZMod.natCast_zmod_val (-j)
    simp only
    by_cases hmid : D % 2 = 0 ∧ j.val = halfDim D
    · have hmidneg : D % 2 = 0 ∧ (-j).val = halfDim D := by
        refine ⟨hmid.1, ?_⟩
        rw [hnegval]
        omega
      rw [if_pos hmidneg, if_pos hmid]
      norm_num
    · by_cases hsl : sliceStart D ≤ j.val
      · rw [if_neg hmid, if_neg hj0, if_pos hsl]
        have hc1 : ¬(D % 2 = 0 ∧ (-j).val = halfDim D) := by
          rw [hnegval]
          omega
        have hc3 : ¬(sliceStart D ≤ (-j).val) := by
          rw [hnegval]
          omega
        rw [if_neg hc1, if_neg hnj0, if_neg hc3, neg_neg]
        have hidx : (halfDim D - 1 - (j.val - sliceStart D) : ℕ) = D - j.val := by omega
        rw [hidx, hcastnj]
      · rw [if_neg hmid, if_neg hj0, if_neg hsl]
        have hc1 : ¬(D % 2 = 0 ∧ (-j).val = halfDim D) := by
          rw [hnegval]
          omega
        have hc3 : sliceStart D ≤ (-j).val := by
          rw [hnegval]
          omega
        rw [if_neg hc1, if_neg hnj0, if_pos hc3]
        have hidx : (halfDim D - 1 - ((-j).val - sliceStart D) : ℕ) = j.val := by
          rw [hnegval]
          omega
        rw [hidx, hcastj]

lemma mkAngles_even_mid {D : ℕ} [NeZero D] {a θ : ZMod D → ℝ}
    (h : mkAngles D a = some θ) (he : D % 2 = 0) :
    θ ((D / 2 : ℕ) : ZMod D) = 0 := by
  obtain ⟨h3, hS, hθ⟩ := mkAngles_elim h
  have hD2eq : halfDim D = D / 2 := by unfold halfDim; omega
  have hlt : D / 2 < D := by omega
  have hval : ((D / 2 : ℕ) : ZMod D).val = D / 2 := ZMod.val_natCast_of_lt hlt
  subst hθ
  simp only
  rw [if_pos ⟨he, by rw [hval]; omega⟩]

lemma conjSymm_expPhase [NeZero D] {θ : ZMod D → ℝ} (hsym : ∀ j, θ (-j) = -θ j) :
    ConjSymm (fun k => Complex.exp ((θ k : ℂ) * Complex.I)) := by
  intro k
  show Complex.exp ((θ (-k) : ℂ) * Complex.I) = conj (Complex.exp ((θ k : ℂ) * Complex.I))
  rw [hsym k, ← Complex.exp_conj, map_mul, Complex.conj_ofReal, Complex.conj_I]
  congr 1
  push_cast
  ring

/-- C6: the stored phase spectrum of a randomly generated SSP vector is
conjugate-symmetric (phase 0 is 0, phase (D-k) = -phase k, and for even D
phase (D/2) is 0), the complex inverse FFT of its unit spectrum has no
imaginary residue (the values are real-valued), and the Fourier spectrum
of the value array is unit-modulus.  The construction succeeds (numpy
does not raise) exactly when D is at least 3. -/
theorem random_phase_symmetry {D : ℕ} [NeZero D] (a θ : ZMod D → ℝ)
    (h : mkAngles D a = some θ) :
    θ 0 = 0 ∧
    (∀ k : ℕ, 1 ≤ k → 2 * k < D → θ ((D - k : ℕ) : ZMod D) = -θ (k : ZMod D)) ∧
    (D % 2 = 0 → θ ((D / 2 : ℕ) : ZMod D) = 0) ∧
    (∀ n, (ifft (fun k => Complex.exp ((θ k : ℂ) * Complex.I)) n).im = 0) ∧
    (∀ k, Complex.abs (fft (toC (mkValues D θ)) k) = 1) := by
  have hsym : ∀ j, θ (-j) = -θ j := mkAngles_neg h
  refine ⟨mkAngles_zero h, ?_, mkAngles_even_mid h, ?_, ?_⟩
  · intro k hk1 hk2
    have hkD : k ≤ D := by omega
    have hcast : ((D - k : ℕ) : ZMod D) = -(k : ZMod D) := by
      rw [Nat.cast_sub hkD, ZMod.natCast_self, zero_sub]
    rw [hcast]
    exact hsym _
  · intro n
    exact im_ifft_eq_zero (conjSymm_expPhase hsym) n
  · intro k
    have hfft : fft (toC (mkValues D θ))
        = fun k => Complex.exp ((θ k : ℂ) * Complex.I) :=
      fft_re_ifft (conjSymm_expPhase hsym)
    simp only [hfft]
    simp [Complex.abs_exp]

lemma mkAngles_three_zero :
    mkAngles 3 (fun _ : ZMod 3 => (0 : ℝ)) = some (fun _ => 0) := by
  have hc : (3 : ℕ) - sliceStart 3 = halfDim 3 - 1 := by decide
  unfold mkAngles
  rw [if_pos hc]
  congr 1
  funext j
  split_ifs <;> simp

/-- Witness for C6 at dimension 3 with all draws 0. -/
theorem random_phase_symmetry_witness :
    (fun _ : ZMod 3 => (0 : ℝ)) 0 = 0 ∧
      (fun _ : ZMod 3 => (0 : ℝ)) ((3 - 1 : ℕ) : ZMod 3)
        = -(fun _ : ZMod 3 => (0 : ℝ)) ((1 : ℕ) : ZMod 3) ∧
      (ifft (fun k => Complex.exp (((fun _ : ZMod 3 => (0 : ℝ)) k : ℂ) * Complex.I)) 0).im
        = 0 ∧
      Complex.abs (fft (toC (mkValues 3 (fun _ : ZMod 3 => (0 : ℝ)))) 0) = 1 :=
  ⟨(random_phase_symmetry _ _ mkAngles_three_zero).1,
   (random_phase_symmetry _ _ mkAngles_three_zero).2.1 1 (by norm_num) (by norm_num),
   (random_phase_symmetry _ _ mkAngles_three_zero).2.2.2.1 0,
   (random_phase_symmetry _ _ mkAngles_three_zero).2.2.2.2 0⟩

/-- Counterexample to C3 as stated: the unitary vector with Fourier
spectrum `(1, -i, -1, i)` (the delta at index 1 in dimension 4) violates
power composition for p = 2, q = 1/2, because squaring moves a phase of
±π/2 onto the branch cut.  The two sides differ by 1/2 at index 0, far
beyond floating-point tolerance. -/
theorem power_power_counterexample :
    MySP.IsUnitary (deltaR (1 : ZMod 4)) ∧
      MySP.power (MySP.power (deltaR (1 : ZMod 4)) 2) ((1 : ℝ) / 2)
        ≠ MySP.power (deltaR (1 : ZMod 4)) (2 * ((1 : ℝ) / 2)) := by
  constructor
  · intro k
    simp only [fft_deltaR]
    exact abs_stdAddChar _
  · intro h
    have h0 := congrFun h 0
    rw [power_two_v4, power_half_v4_at0, power_one_v4_at0] at h0
    norm_num at h0

/-- Witness for the amended C3 at dimension 1 with p = q = 2. -/
theorem power_power_amended_witness :
    MySP.power (MySP.power (fun _ : ZMod 1 => (1 : ℝ)) 2) 2
      = MySP.power (fun _ : ZMod 1 => (1 : ℝ)) (2 * 2) := by
  refine power_power_amended _ 2 2 isUnitary_one_const ?_ ?_
  · intro k
    rw [fft_toC_one_const]
    simpa using Real.pi_ne_zero.symm
  · intro k
    rw [fft_toC_one_const]
    constructor
    · simpa using Real.pi_pos
    · simpa using Real.pi_pos.le

end

section

variable {α : Type} [LinearOrderedField α] {m : ℕ}

lemma decodeLoop_succ (kappa eps : α) (DPhi DA : Fin m → α) (fuel t : ℕ) (x : α) :
    decodeLoop kappa eps DPhi DA (fuel + 1) t x
      = if |xIncrement kappa DPhi DA t x| < eps
        then (stepX kappa DPhi DA t x, true, t)
        else decodeLoop kappa eps DPhi DA fuel (t + 1) (stepX kappa DPhi DA t x) := rfl

lemma decodeLoop_char (kappa eps : α) (DPhi DA : Fin m → α) :
    ∀ (fuel t : ℕ) (x : α),
      (∃ j, j < fuel ∧
        (∀ i, i < j →
          eps ≤ |xIncrement kappa DPhi DA (t + i) (iterFrom kappa DPhi DA t i x)|) ∧
        |xIncrement kappa DPhi DA (t + j) (iterFrom kappa DPhi DA t j x)| < eps ∧
        decodeLoop kappa eps DPhi DA fuel t x
          = (iterFrom kappa DPhi DA t (j + 1) x, true, t + j))
      ∨ ((∀ i, i < fuel →
          eps ≤ |xIncrement kappa DPhi DA (t + i) (iterFrom kappa DPhi DA t i x)|) ∧
        decodeLoop kappa eps DPhi DA fuel t x
          = (iterFrom kappa DPhi DA t fuel x, false, t + fuel)) := by
  intro fuel
  induction fuel with
  | zero =>
    intro t x
    right
    exact ⟨fun i hi => absurd hi (Nat.not_lt_zero i), rfl⟩
  | succ fuel ih =>
    intro t x
    have hshift : ∀ i, iterFrom kappa DPhi DA t (i + 1) x
        = iterFrom kappa DPhi DA (t + 1) i (stepX kappa DPhi DA t x) := fun i => rfl
    have ht : ∀ i : ℕ, t + (i + 1) = t + 1 + i := fun i => by omega
    by_cases hstop : |xIncrement kappa DPhi DA t x| < eps
    · left
      refine ⟨0, Nat.succ_pos fuel, fun i hi => absurd hi (Nat.not_lt_zero i), ?_, ?_⟩
      · simpa using hstop
      · rw [decodeLoop_succ, if_pos hstop]
        rfl
    · rcases ih (t + 1) (stepX kappa DPhi DA t x) with
        ⟨j, hj, hmin, hstopj, heq⟩ | ⟨hall, heq⟩
      · left
        refine ⟨j + 1, by omega, ?_, ?_, ?_⟩
        · intro i hi
          match i with
          | 0 => simpa using not_lt.mp hstop
          | i' + 1 =>
            rw [ht i', hshift i']
            exact hmin i' (by omega)
        · rw [ht j, hshift j]
          exact hstopj
        · rw [decodeLoop_succ, if_neg hstop, heq, ht j, hshift (j + 1)]
      · right
        refine ⟨?_, ?_⟩
        · intro i hi
          match i with
          | 0 => simpa using not_lt.mp hstop
          | i' + 1 =>
            rw [ht i', hshift i']
            exact hall i' (by omega)
        · rw [decodeLoop_succ, if_neg hstop, heq, ht fuel, hshift fuel]

/-- C1: every iteration of the decode loop computes the residuals from the
current estimate, zeroes those with magnitude above 1/t, and adds
kappa times the dot product of DeltaA with the censored residuals to x;
the estimate starts at 0 with counter 1, kappa defaults to 0.1, and the
estimate the decoder returns is always an iterate of exactly that update
rule applied from 0. -/
theorem decode_iteration_step (kappa eps : α) (DPhi DA : Fin m → α)
    (fuel t : ℕ) (x : α) (M : ℕ) :
    decodeLoop kappa eps DPhi DA (fuel + 1) t x
      = (if |kappa * ∑ i, DA i * (if |DPhi i - DA i * x| > 1 / (t : α) then 0
            else DPhi i - DA i * x)| < eps
         then (x + kappa * ∑ i, DA i * (if |DPhi i - DA i * x| > 1 / (t : α) then 0
            else DPhi i - DA i * x), true, t)
         else decodeLoop kappa eps DPhi DA fuel (t + 1)
            (x + kappa * ∑ i, DA i * (if |DPhi i - DA i * x| > 1 / (t : α) then 0
              else DPhi i - DA i * x))) ∧
    decode DPhi DA kappa eps M = decodeLoop kappa eps DPhi DA (M - 1) 1 0 ∧
    decodeDefault DPhi DA = decode DPhi DA (1 / 10) (1 / 10000) 100 ∧
    (∀ M2 : ℕ, ∃ n, n ≤ M2 - 1 ∧
      (decode DPhi DA kappa eps M2).1 = iterFrom kappa DPhi DA 1 n 0) := by
  refine ⟨rfl, rfl, rfl, ?_⟩
  intro M2
  rcases decodeLoop_char kappa eps DPhi DA (M2 - 1) 1 0 with
    ⟨j, hj, -, -, heq⟩ | ⟨-, heq⟩
  · refine ⟨j + 1, by omega, ?_⟩
    rw [show decode DPhi DA kappa eps M2
      = decodeLoop kappa eps DPhi DA (M2 - 1) 1 0 from rfl, heq]
  · refine ⟨M2 - 1, le_refl _, ?_⟩
    rw [show decode DPhi DA kappa eps M2
      = decodeLoop kappa eps DPhi DA (M2 - 1) 1 0 from rfl, heq]

/-- C2: the decode loop always terminates with an estimate.  Either the
break is taken at the first iteration j whose increment magnitude falls
below eps (all earlier increments being at least eps), returning the
estimate reached then, or no increment ever fell below eps and all M - 1
iterations run, the counter reaching M, with the last estimate reported
as a best-effort result rather than a failure. -/
theorem decode_terminates (kappa eps : α) (DPhi DA : Fin m → α) (M : ℕ) :
    (∃ j, j < M - 1 ∧
      (∀ i, i < j →
        eps ≤ |xIncrement kappa DPhi DA (1 + i) (iterFrom kappa DPhi DA 1 i 0)|) ∧
      |xIncrement kappa DPhi DA (1 + j) (iterFrom kappa DPhi DA 1 j 0)| < eps ∧
      decode DPhi DA kappa eps M = (iterFrom kappa DPhi DA 1 (j + 1) 0, true, 1 + j))
    ∨ ((∀ i, i < M - 1 →
        eps ≤ |xIncrement kappa DPhi DA (1 + i) (iterFrom kappa DPhi DA 1 i 0)|) ∧
      decode DPhi DA kappa eps M
        = (iterFrom kappa DPhi DA 1 (M - 1) 0, false, 1 + (M - 1))) :=
  decodeLoop_char kappa eps DPhi DA (M - 1) 1 0

/-- Witness for C1: one unfolding step at rational inputs of length 0. -/
theorem decode_iteration_step_witness :
    decodeLoop (1 / 10 : ℚ) (1 / 10000) (fun _ : Fin 0 => 0) (fun _ : Fin 0 => 0) 1 1 0
      = (0, true, 1) := by
  rw [(decode_iteration_step (1 / 10 : ℚ) (1 / 10000) (fun _ : Fin 0 => 0)
    (fun _ : Fin 0 => 0) 0 1 0 100).1]
  norm_num

/-- Witness for C2: with no couplings every increment is 0, so the loop
breaks at the first iteration. -/
theorem decode_terminates_witness :
    decode (fun _ : Fin 0 => (0 : ℚ)) (fun _ : Fin 0 => 0) (1 / 10) (1 / 10000) 100
      = (iterFrom (1 / 10) (fun _ : Fin 0 => 0) (fun _ : Fin 0 => 0) 1 1 0, true, 1) := by
  have hinc : ∀ (t : ℕ) (x : ℚ),
      xIncrement (1 / 10 : ℚ) (fun _ : Fin 0 => 0) (fun _ : Fin 0 => 0) t x = 0 := by
    intro t x
    unfold xIncrement
    simp
  rcases decode_terminates (1 / 10 : ℚ) (1 / 10000) (fun _ : Fin 0 => 0)
      (fun _ : Fin 0 => 0) 100 with ⟨j, hj, hmin, hstop, heq⟩ | ⟨hall, heq⟩
  · have hj0 : j = 0 := by
      by_contra hne
      have hc := hmin 0 (Nat.pos_of_ne_zero hne)
      rw [hinc] at hc
      norm_num at hc
    subst hj0
    simpa using heq
  · have hc := hall 0 (by norm_num)
    rw [hinc] at hc
    norm_num at hc

end

section

variable {α : Type} [LinearOrderedField α] {D : ℕ}

lemma argsort_length (a : Fin D → α) : (argsort a).length = D := by
  simp [argsort]

/-- C7: the coupling builder produces exactly D - 1 adjacent couplings
followed by exactly D - 2 skip-one couplings, 2D - 3 in total, and the
DeltaA entry of each coupling (j, k) is phase j minus phase k of the
reference spectrum. -/
theorem couplings_spec (a : Fin D → α) :
    (adjacentCouplings a).length = D - 1 ∧
    (skipCouplings a).length = D - 2 ∧
    (couplings a).length = 2 * D - 3 ∧
    ∀ (i : ℕ) (h : i < (couplings a).length),
      (DeltaA a).get ⟨i, by simpa [DeltaA] using h⟩
        = a ((couplings a).get ⟨i, h⟩).1 - a ((couplings a).get ⟨i, h⟩).2 := by
  have hadj : (adjacentCouplings a).length = D - 1 := by
    simp only [adjacentCouplings, List.length_zip, List.length_dropLast, List.length_drop,
      argsort_length]
    omega
  have hskip : (skipCouplings a).length = D - 2 := by
    simp only [skipCouplings, List.length_zip, List.length_dropLast, List.length_drop,
      argsort_length]
    omega
  have htot : (couplings a).length = 2 * D - 3 := by
    simp only [couplings, List.length_append, hadj, hskip]
    omega
  refine ⟨hadj, hskip, htot, ?_⟩
  intro i h
  simp [DeltaA]

lemma couplings_phase3_length_pos : 0 < (couplings phase3).length := by
  simp [couplings, adjacentCouplings, skipCouplings, argsort_length, List.length_zip,
    List.length_dropLast, List.length_drop]

/-- Witness for C7 at D = 3 with phases (2, 1, 3). -/
theorem couplings_spec_witness :
    (0 : ℕ) < (couplings phase3).length ∧
      (DeltaA phase3).get
          ⟨0, by simpa [DeltaA] using couplings_phase3_length_pos⟩
        = phase3 ((couplings phase3).get ⟨0, couplings_phase3_length_pos⟩).1
          - phase3 ((couplings phase3).get ⟨0, couplings_phase3_length_pos⟩).2 :=
  ⟨couplings_phase3_length_pos, (couplings_spec phase3).2.2.2 0 couplings_phase3_length_pos⟩

end

lemma cleanupScan_no_update : ∀ (sims : List ℝ) (k : ℕ) (c : ℤ) (m : ℝ),
    (∀ s ∈ sims, s ≤ m) → cleanupScan sims k c m = (c, m)
  | [], _, _, _, _ => rfl
  | s :: rest, k, c, m, h => by
    simp only [cleanupScan]
    rw [if_neg (not_lt.mpr (h s (List.mem_cons_self s rest)))]
    exact cleanupScan_no_update rest (k + 1) c m (fun r hr => h r (List.mem_cons_of_mem s hr))

lemma cleanupScan_found : ∀ (sims : List ℝ) (k : ℕ) (c : ℤ) (m : ℝ),
    (∃ s ∈ sims, m < s) →
    ∃ (j : ℕ) (hj : j < sims.length),
      cleanupScan sims k c m = (((k + j : ℕ) : ℤ), sims.get ⟨j, hj⟩) ∧
      m < sims.get ⟨j, hj⟩ ∧
      (∀ i : ℕ, ∀ hi : i < sims.length, sims.get ⟨i, hi⟩ ≤ sims.get ⟨j, hj⟩) ∧
      (∀ i : ℕ, i < j → ∀ hi : i < sims.length, sims.get ⟨i, hi⟩ < sims.get ⟨j, hj⟩)
  | [], k, c, m, h => absurd h (by simp)
  | s :: rest, k, c, m, h => by
    by_cases hs : s > m
    · by_cases hrest : ∃ r ∈ rest, s < r
      · obtain ⟨j, hj, heq, hgt, hmax, hfirst⟩ := cleanupScan_found rest (k + 1) k s hrest
        refine ⟨j + 1, Nat.succ_lt_succ hj, ?_, lt_trans hs hgt, ?_, ?_⟩
        · simp only [cleanupScan]
          rw [if_pos hs, heq]
          have hnat : k + 1 + j = k + (j + 1) := by omega
          rw [hnat]
          rfl
        · intro i hi
          match i, hi with
          | 0, _ => exact le_of_lt hgt
          | i' + 1, hi => exact hmax i' (Nat.lt_of_succ_lt_succ hi)
        · intro i hlt hi
          match i, hlt, hi with
          | 0, _, _ => exact hgt
          | i' + 1, hlt, hi =>
            exact hfirst i' (Nat.lt_of_succ_lt_succ hlt) (Nat.lt_of_succ_lt_succ hi)
      · push_neg at hrest
        refine ⟨0, Nat.succ_pos _, ?_, hs, ?_, ?_⟩
        · simp only [cleanupScan]
          rw [if_pos hs, cleanupScan_no_update rest (k + 1) (k : ℤ) s hrest]
          rfl
        · intro i hi
          match i, hi with
          | 0, _ => exact le_refl s
          | i' + 1, hi => exact hrest _ (rest.get_mem _ _)
        · intro i hlt _
          exact absurd hlt (Nat.not_lt_zero i)
    · have hrest : ∃ r ∈ rest, m < r := by
        obtain ⟨r, hr, hmr⟩ := h
        rcases List.mem_cons.mp hr with hr1 | hr2
        · exact absurd (hr1 ▸ hmr) hs
        · exact ⟨r, hr2, hmr⟩
      obtain ⟨j, hj, heq, hgt, hmax, hfirst⟩ := cleanupScan_found rest (k + 1) c m hrest
      refine ⟨j + 1, Nat.succ_lt_succ hj, ?_, hgt, ?_, ?_⟩
      · simp only [cleanupScan]
        rw [if_neg hs, heq]
        have hnat : k + 1 + j = k + (j + 1) := by omega
        rw [hnat]
        rfl
      · intro i hi
        match i, hi with
        | 0, _ => exact le_trans (not_lt.mp hs) (le_of_lt hgt)
        | i' + 1, hi => exact hmax i' (Nat.lt_of_succ_lt_succ hi)
      · intro i hlt hi
        match i, hlt, hi with
        | 0, _, _ => exact lt_of_le_of_lt (not_lt.mp hs) hgt
        | i' + 1, hlt, hi =>
          exact hfirst i' (Nat.lt_of_succ_lt_succ hlt) (Nat.lt_of_succ_lt_succ hi)

/-- C8 (amended): for a non-empty vocabulary, cleanup returns the triple
(best member, its index as first maximum in index order, its similarity)
PROVIDED at least one similarity exceeds the -1e50 sentinel the scan
starts from (true for any realistic query).  Without that proviso the
claim as stated is false: see cleanup_counterexample. -/
theorem cleanup_first_argmax {D : ℕ} [NeZero D] (vocab : List (ZMod D → ℝ))
    (x : ZMod D → ℝ) (h : ∃ s ∈ vocab, -(10 ^ 50 : ℝ) < MySP.similarity x s) :
    ∃ (j : ℕ) (hj : j < vocab.length),
      cleanup vocab x
        = (some (vocab.get ⟨j, hj⟩), (j : ℤ), MySP.similarity x (vocab.get ⟨j, hj⟩)) ∧
      (∀ i : ℕ, ∀ hi : i < vocab.length,
        MySP.similarity x (vocab.get ⟨i, hi⟩) ≤ MySP.similarity x (vocab.get ⟨j, hj⟩)) ∧
      (∀ i : ℕ, i < j → ∀ hi : i < vocab.length,
        MySP.similarity x (vocab.get ⟨i, hi⟩) < MySP.similarity x (vocab.get ⟨j, hj⟩)) := by
  have hsims : ∃ s ∈ vocab.map (fun s => MySP.similarity x s), -(10 ^ 50 : ℝ) < s := by
    obtain ⟨s, hsv, hgt⟩ := h
    exact ⟨MySP.similarity x s, List.mem_map_of_mem _ hsv, hgt⟩
  obtain ⟨j, hj, heq, hgt, hmax, hfirst⟩ :=
    cleanupScan_found (vocab.map fun s => MySP.similarity x s) 0 (-1) (-(10 ^ 50)) hsims
  have hjlen : j < vocab.length := by simpa using hj
  have hget : ∀ (i : ℕ) (hi : i < (vocab.map fun s => MySP.similarity x s).length)
      (hi2 : i < vocab.length),
      (vocab.map fun s => MySP.similarity x s).get ⟨i, hi⟩
        = MySP.similarity x (vocab.get ⟨i, hi2⟩) := by
    intro i hi hi2
    simp
  have hpg : pythonGet vocab (j : ℤ) = some (vocab.get ⟨j, hjlen⟩) := by
    unfold pythonGet
    rw [if_pos (Int.natCast_nonneg j), Int.toNat_natCast]
    rw [List.getElem?_eq_getElem hjlen]
    simp [List.get_eq_getElem]
  refine ⟨j, hjlen, ?_, ?_, ?_⟩
  · show (pythonGet vocab (cleanupScan _ 0 (-1) (-(10 ^ 50))).1,
      (cleanupScan _ 0 (-1) (-(10 ^ 50))).1, (cleanupScan _ 0 (-1) (-(10 ^ 50))).2) = _
    rw [heq]
    simp only [Nat.zero_add]
    rw [hpg, hget j hj hjlen]
  · intro i hi
    have hres := hmax i (by simpa using hi)
    rw [hget i _ hi, hget j _ hjlen] at hres
    exact hres
  · intro i hlt hi
    have hres := hfirst i hlt (by simpa using hi)
    rw [hget i _ hi, hget j _ hjlen] at hres
    exact hres

/-- Witness for the amended C8: one-member vocabulary at dimension 1. -/
theorem cleanup_first_argmax_witness :
    cleanup [fun _ : ZMod 1 => (1 : ℝ)] (fun _ : ZMod 1 => (1 : ℝ))
      = (some (fun _ : ZMod 1 => (1 : ℝ)), 0,
          MySP.similarity (fun _ : ZMod 1 => (1 : ℝ)) (fun _ : ZMod 1 => (1 : ℝ))) := by
  have hsim : -(10 ^ 50 : ℝ)
      < MySP.similarity (fun _ : ZMod 1 => (1 : ℝ)) (fun _ : ZMod 1 => (1 : ℝ)) := by
    unfold MySP.similarity
    rw [Fintype.sum_unique]
    norm_num
  obtain ⟨j, hj, heq, -, -⟩ :=
    cleanup_first_argmax [fun _ : ZMod 1 => (1 : ℝ)] (fun _ : ZMod 1 => (1 : ℝ))
      ⟨_, List.mem_singleton_self _, hsim⟩
  have hj0 : j = 0 := by simpa using hj
  subst hj0
  simpa using heq

/-- Counterexample to C8 as stated: a query whose only similarity is
below the -1e50 sentinel.  The scan never updates, so cleanup returns
index -1 (resolved by python negative indexing to the LAST member) and
similarity -1e50 instead of the argmax index 0 and the true maximum
similarity -2e50. -/
theorem cleanup_counterexample :
    MySP.similarity (fun _ : ZMod 1 => (-(2 * 10 ^ 50) : ℝ)) (fun _ : ZMod 1 => (1 : ℝ))
        = -(2 * 10 ^ 50) ∧
    cleanup [fun _ : ZMod 1 => (1 : ℝ)] (fun _ : ZMod 1 => (-(2 * 10 ^ 50) : ℝ))
      = (some (fun _ : ZMod 1 => (1 : ℝ)), -1, -(10 ^ 50)) ∧
    ((-1 : ℤ) ≠ 0) ∧ ((-(10 ^ 50) : ℝ) ≠ -(2 * 10 ^ 50)) := by
  have hsim : MySP.similarity (fun _ : ZMod 1 => (-(2 * 10 ^ 50) : ℝ))
      (fun _ : ZMod 1 => (1 : ℝ)) = -(2 * 10 ^ 50) := by
    unfold MySP.similarity
    rw [Fintype.sum_unique]
    norm_num
  refine ⟨hsim, ?_, by decide, by norm_num⟩
  show (pythonGet _ (cleanupScan _ 0 (-1) (-(10 ^ 50))).1,
    (cleanupScan _ 0 (-1) (-(10 ^ 50))).1, (cleanupScan _ 0 (-1) (-(10 ^ 50))).2) = _
  rw [List.map_cons, List.map_nil, hsim]
  simp only [cleanupScan]
  rw [if_neg (by norm_num)]
  have hpg : pythonGet [fun _ : ZMod 1 => (1 : ℝ)] (-1 : ℤ)
      = some (fun _ : ZMod 1 => (1 : ℝ)) := by
    unfold pythonGet
    norm_num
  rw [hpg]

lemma fftList_length (v : List ℝ) : (fftList v).length = v.length := by
  simp [fftList]

lemma npBinop_eq_none {β : Type} [Inhabited β] (f : β → β → β) (v y : List β) :
    npBinop f v y = none ↔ v.length ≠ y.length ∧ v.length ≠ 1 ∧ y.length ≠ 1 := by
  unfold npBinop
  split_ifs with h1 h2 h3
  · simp [h1]
  · simp [h1, h2]
  · simp [h1, h2, h3]
  · simp [h1, h2, h3]

/-- C9 (amended): the elementwise operations bind, unbind and bundle
raise a dimension error exactly when the operand dimensions differ AND
neither operand has dimension 1 (numpy broadcasting silently accepts a
dimension-1 operand against any other dimension); similarity (np.dot)
raises exactly when the dimensions differ.  The unamended claim is
refuted by bundle_broadcast_counterexample. -/
theorem binop_dimension_errors (v y : List ℝ) :
    (bundleL v y = none ↔ v.length ≠ y.length ∧ v.length ≠ 1 ∧ y.length ≠ 1) ∧
    (bindL v y = none ↔ v.length ≠ y.length ∧ v.length ≠ 1 ∧ y.length ≠ 1) ∧
    (unbindL v y = none ↔ v.length ≠ y.length ∧ v.length ≠ 1 ∧ y.length ≠ 1) ∧
    (similarityL v y = none ↔ v.length ≠ y.length) := by
  refine ⟨npBinop_eq_none _ v y, ?_, ?_, ?_⟩
  · unfold bindL
    rw [Option.map_eq_none']
    rw [npBinop_eq_none, fftList_length, fftList_length]
  · unfold unbindL
    rw [Option.map_eq_none']
    rw [npBinop_eq_none, fftList_length, fftList_length]
  · unfold similarityL
    split_ifs with h <;> simp [h]

/-- Counterexample to C9 as stated: bundling a dimension-1 vector with a
dimension-3 vector does not raise; numpy broadcasts and returns a
dimension-3 result. -/
theorem bundle_broadcast_counterexample :
    (1 : ℕ) ≠ 3 ∧
      bundleL [(1 : ℝ)] [1, 2, 3] = some [2, 3, 4] ∧
      similarityL [(1 : ℝ)] [1, 2, 3] = none := by
  refine ⟨by decide, ?_, ?_⟩
  · unfold bundleL npBinop
    norm_num
  · unfold similarityL
    norm_num

/-- Witness for the amended C9 at concrete dimensions 1 and 2. -/
theorem binop_dimension_errors_witness :
    (bundleL [(1 : ℝ)] [1, 2] = none ↔
      [(1 : ℝ)].length ≠ [(1 : ℝ), 2].length ∧ [(1 : ℝ)].length ≠ 1
        ∧ [(1 : ℝ), 2].length ≠ 1) ∧
    (bindL [(1 : ℝ)] [1, 2] = none ↔
      [(1 : ℝ)].length ≠ [(1 : ℝ), 2].length ∧ [(1 : ℝ)].length ≠ 1
        ∧ [(1 : ℝ), 2].length ≠ 1) ∧
    (unbindL [(1 : ℝ)] [1, 2] = none ↔
      [(1 : ℝ)].length ≠ [(1 : ℝ), 2].length ∧ [(1 : ℝ)].length ≠ 1
        ∧ [(1 : ℝ), 2].length ≠ 1) ∧
    (similarityL [(1 : ℝ)] [1, 2] = none ↔ [(1 : ℝ)].length ≠ [(1 : ℝ), 2].length) :=
  binop_dimension_errors [(1 : ℝ)] [(1 : ℝ), 2]
